import Mathlib

/-!
Verification of the sidecar lifecycle manager of the agentsview desktop
shell, embedded shallowly from desktop/src-tauri/src/lib.rs.  Rust
OsString keys and values become List Char, raw byte streams become
List Nat, and the BTreeMap used for environment merging becomes an
association list with an overwriting insert (the map's iteration order is
irrelevant to every property considered here, as the design notes state).
-/

namespace AgentsView

/-! ### Generic searching helpers shared by several embedded functions. -/

/-- Rust iterator position for equality with a fixed element: the index of
the first occurrence of x, if any (entry.iter().position, split_once). -/
def positionOf {α : Type} [DecidableEq α] (x : α) : List α → Option Nat
  | [] => none
  | a :: t => if a = x then some 0 else (positionOf x t).map (· + 1)

/-- Rust str::find and windows(n).position(|w| w == pat): the index of the
first occurrence of the sublist pat, if any. -/
def findSubIdx {α : Type} [DecidableEq α] (pat : List α) : List α → Option Nat
  | [] => if pat.isPrefixOf ([] : List α) then some 0 else none
  | a :: t => if pat.isPrefixOf (a :: t) then some 0 else (findSubIdx pat t).map (· + 1)

theorem positionOf_eq_some_iff {α : Type} [DecidableEq α] (x : α) (l : List α) (i : Nat) :
    positionOf x l = some i ↔ ∃ pre post, l = pre ++ x :: post ∧ pre.length = i ∧ x ∉ pre := by
  induction l generalizing i with
  | nil => simp [positionOf]
  | cons a t ih =>
    by_cases hax : a = x
    · subst hax
      simp only [positionOf, if_pos rfl]
      constructor
      · rintro h
        injection h with h
        exact ⟨[], t, by simp [← h]⟩
      · rintro ⟨pre, post, hdecomp, hlen, hnotmem⟩
        cases pre with
        | nil => simp at hdecomp hlen ⊢; omega
        | cons b pre =>
          injection hdecomp with hb htail
          subst hb
          exact absurd (List.mem_cons_self _ _) hnotmem
    · simp only [positionOf, if_neg hax]
      constructor
      · intro h
        rcases Option.map_eq_some'.mp h with ⟨j, hj, hji⟩
        rcases (ih j).mp hj with ⟨pre, post, hdecomp, hlen, hnotmem⟩
        refine ⟨a :: pre, post, by simp [hdecomp], by simp [hlen, ← hji], ?_⟩
        intro hmem
        rcases List.mem_cons.mp hmem with h1 | h2
        · exact hax h1.symm
        · exact hnotmem h2
      · rintro ⟨pre, post, hdecomp, hlen, hnotmem⟩
        cases pre with
        | nil => injection hdecomp with hb _; exact absurd hb hax
        | cons b pre =>
          injection hdecomp with hb htail
          subst hb
          have hx : x ∉ pre := fun hmem => hnotmem (List.mem_cons_of_mem _ hmem)
          have := (ih pre.length).mpr ⟨pre, post, htail, rfl, hx⟩
          simp [this, ← hlen]

theorem positionOf_eq_none_iff {α : Type} [DecidableEq α] (x : α) (l : List α) :
    positionOf x l = none ↔ x ∉ l := by
  induction l with
  | nil => simp [positionOf]
  | cons a t ih =>
    by_cases hax : a = x
    · simp [positionOf, hax]
    · simp only [positionOf, if_neg hax, Option.map_eq_none', ih, List.mem_cons]
      constructor
      · intro h hc
        rcases hc with hc | hc
        · exact hax hc.symm
        · exact h hc
      · intro h hc
        exact h (Or.inr hc)

/-! ### Environment model.

normalize_env_key, merge_env_pairs and build_sidecar_env from
desktop/src-tauri/src/lib.rs lines 142-179.  OsString is modelled as
List Char; to_string_lossy().to_ascii_uppercase() becomes a map of
Char.toUpper (which uppercases exactly the ASCII range, like Rust's
to_ascii_uppercase).  The BTreeMap is modelled as an association list
whose insert removes any existing binding of the key and appends the new
one; lookups and the set of entries agree with the map, only the order of
the final listing differs, which no claim depends on. -/

abbrev OsStr := List Char

def normalize_env_key (key : OsStr) (case_insensitive_keys : Bool) : OsStr :=
  if case_insensitive_keys then key.map Char.toUpper else key

def envInsert (m : List (OsStr × OsStr)) (k v : OsStr) : List (OsStr × OsStr) :=
  m.filter (fun p => p.1 ≠ k) ++ [(k, v)]

def envLookup (m : List (OsStr × OsStr)) (k : OsStr) : Option OsStr :=
  (m.find? (fun p => p.1 = k)).map (·.2)

def merge_env_pairs (dest : List (OsStr × OsStr)) (pairs : List (OsStr × OsStr))
    (case_insensitive_keys : Bool) : List (OsStr × OsStr) :=
  pairs.foldl
    (fun d p => envInsert d (normalize_env_key p.1 case_insensitive_keys) p.2) dest

def build_sidecar_env (inherited login_shell desktop_file : List (OsStr × OsStr))
    (forced_path : Option OsStr) (case_insensitive_keys : Bool) :
    List (OsStr × OsStr) :=
  let merged := merge_env_pairs [] inherited case_insensitive_keys
  let merged := merge_env_pairs merged login_shell case_insensitive_keys
  let merged := merge_env_pairs merged desktop_file case_insensitive_keys
  match forced_path with
  | some path =>
    envInsert merged (normalize_env_key "PATH".data case_insensitive_keys) path
  | none => merged

/-- Specification-side helper: the value a single source supplies for the
normalized key nk, namely the value of the last pair of the source whose
normalized key is nk (later entries of one source overwrite earlier ones
when inserted in order). -/
def sourceValue (pairs : List (OsStr × OsStr)) (ci : Bool) (nk : OsStr) :
    Option OsStr :=
  (pairs.filterMap
    (fun p => if normalize_env_key p.1 ci = nk then some p.2 else none)).getLast?

theorem envLookup_envInsert (m : List (OsStr × OsStr)) (k v k' : OsStr) :
    envLookup (envInsert m k v) k' = if k' = k then some v else envLookup m k' := by
  induction m with
  | nil =>
    by_cases h : k' = k
    · simp [envInsert, envLookup, List.find?, h]
    · have h2 : ¬ k = k' := fun hc => h hc.symm
      simp [envInsert, envLookup, List.find?, h, h2]
  | cons p t ih =>
    by_cases hpk : p.1 = k
    · by_cases hpk' : p.1 = k'
      · have hk : k' = k := by rw [← hpk', hpk]
        simpa [envInsert, envLookup, List.filter_cons, hpk, hk] using ih
      · by_cases h : k' = k
        · simpa [envInsert, envLookup, List.filter_cons, hpk, h] using ih
        · simp only [envInsert, envLookup, List.filter_cons] at ih ⊢
          simp only [hpk, decide_not]
          simpa [envLookup, List.find?, hpk', h] using ih
    · by_cases hpk' : p.1 = k'
      · have h : ¬ (k' = k) := by rw [← hpk']; exact fun hc => hpk hc
        simp [envInsert, envLookup, List.filter_cons, hpk, hpk', h, List.find?]
      · simp only [envInsert, envLookup, List.filter_cons] at ih ⊢
        by_cases h : k' = k <;>
          simpa [envLookup, List.find?, hpk, hpk', h] using ih

theorem getLast?_cons {α : Type} (a : α) (l : List α) :
    (a :: l).getLast? = (l.getLast?).orElse (fun _ => some a) := by
  induction l with
  | nil => simp
  | cons b t ih => cases t <;> simp_all [List.getLast?]

theorem envLookup_merge (pairs : List (OsStr × OsStr)) :
    ∀ (dest : List (OsStr × OsStr)) (ci : Bool) (nk : OsStr),
      envLookup (merge_env_pairs dest pairs ci) nk =
        (sourceValue pairs ci nk).orElse (fun _ => envLookup dest nk) := by
  induction pairs with
  | nil =>
    intro dest ci nk
    simp [merge_env_pairs, sourceValue, Option.orElse]
  | cons p t ih =>
    intro dest ci nk
    have hfold : merge_env_pairs dest (p :: t) ci =
        merge_env_pairs (envInsert dest (normalize_env_key p.1 ci) p.2) t ci := rfl
    rw [hfold, ih, envLookup_envInsert]
    simp only [sourceValue, List.filterMap_cons]
    by_cases h : normalize_env_key p.1 ci = nk
    · rw [if_pos h, getLast?_cons]
      have hnk : nk = normalize_env_key p.1 ci := h.symm
      cases hl : (t.filterMap
          (fun q => if normalize_env_key q.1 ci = nk then some q.2 else none)).getLast? <;>
        simp [Option.orElse, hl, hnk]
    · rw [if_neg h]
      have hnk : ¬ nk = normalize_env_key p.1 ci := fun hc => h hc.symm
      cases hl : (t.filterMap
          (fun q => if normalize_env_key q.1 ci = nk then some q.2 else none)).getLast? <;>
        simp [Option.orElse, hl, hnk]

/-- Claim C1: for every set of inputs, the merged environment returned by
build_sidecar_env gives, for any normalized key, the value from the
highest-precedence source that supplies it, with precedence
ForcedPath > FileOverride > LoginShell > Inherited; in particular, when a
forced path is supplied, the PATH entry equals the forced value regardless
of all other sources (the forced path only ever supplies the PATH key). -/
theorem build_sidecar_env_precedence
    (inherited login_shell desktop_file : List (OsStr × OsStr))
    (forced_path : Option OsStr) (ci : Bool) (nk : OsStr) :
    envLookup (build_sidecar_env inherited login_shell desktop_file forced_path ci) nk =
      match forced_path with
      | some path =>
        if nk = normalize_env_key "PATH".data ci then some path
        else (sourceValue desktop_file ci nk).orElse fun _ =>
          (sourceValue login_shell ci nk).orElse fun _ => sourceValue inherited ci nk
      | none =>
        (sourceValue desktop_file ci nk).orElse fun _ =>
          (sourceValue login_shell ci nk).orElse fun _ => sourceValue inherited ci nk := by
  have hbase : envLookup ([] : List (OsStr × OsStr)) nk = none := by
    simp [envLookup, List.find?]
  cases forced_path with
  | none =>
    show envLookup (merge_env_pairs (merge_env_pairs (merge_env_pairs [] inherited ci)
        login_shell ci) desktop_file ci) nk = _
    rw [envLookup_merge, envLookup_merge, envLookup_merge, hbase]
    cases sourceValue desktop_file ci nk <;>
      cases sourceValue login_shell ci nk <;>
        cases sourceValue inherited ci nk <;> simp [Option.orElse]
  | some path =>
    show envLookup (envInsert (merge_env_pairs (merge_env_pairs (merge_env_pairs []
        inherited ci) login_shell ci) desktop_file ci)
        (normalize_env_key "PATH".data ci) path) nk = _
    rw [envLookup_envInsert]
    by_cases h : nk = normalize_env_key "PATH".data ci
    · simp [h]
    · simp only [if_neg h]
      rw [envLookup_merge, envLookup_merge, envLookup_merge, hbase]
      cases sourceValue desktop_file ci nk <;>
        cases sourceValue login_shell ci nk <;>
          cases sourceValue inherited ci nk <;> simp [Option.orElse]

/-! ### Key normalization collapses ASCII case (claim C6). -/

theorem char_toUpper_idem (c : Char) : c.toUpper.toUpper = c.toUpper := by
  by_cases h : Char.toNat c ≥ 97 ∧ Char.toNat c ≤ 122
  · have hstep : c.toUpper = Char.ofNat (Char.toNat c - 32) := by
      unfold Char.toUpper
      rw [if_pos h]
    rw [hstep]
    obtain ⟨h1, h2⟩ := h
    obtain ⟨n, hn⟩ : ∃ n, Char.toNat c = n := ⟨_, rfl⟩
    rw [hn] at h1 h2 ⊢
    interval_cases n <;> decide
  · have hstep : c.toUpper = c := by
      unfold Char.toUpper
      rw [if_neg h]
    rw [hstep, hstep]

theorem upperKey_idem (k : OsStr) :
    (k.map Char.toUpper).map Char.toUpper = k.map Char.toUpper := by
  rw [List.map_map]
  exact List.map_congr_left (fun a _ => char_toUpper_idem a)

/-- Distinctness of the stored keys, the association-list counterpart of the
BTreeMap holding at most one binding per key. -/
def KeysDistinct (m : List (OsStr × OsStr)) : Prop :=
  List.Pairwise (fun a b : OsStr × OsStr => a.1 ≠ b.1) m

theorem envInsert_keysDistinct (m : List (OsStr × OsStr)) (k v : OsStr)
    (h : KeysDistinct m) : KeysDistinct (envInsert m k v) := by
  unfold KeysDistinct envInsert
  rw [List.pairwise_append]
  refine ⟨List.Pairwise.filter _ h, List.pairwise_singleton _ _, ?_⟩
  intro a ha b hb
  rcases List.mem_filter.mp ha with ⟨_, hak⟩
  rcases List.mem_singleton.mp hb with rfl
  exact of_decide_eq_true hak

theorem merge_env_pairs_keysDistinct (pairs : List (OsStr × OsStr)) :
    ∀ (dest : List (OsStr × OsStr)) (ci : Bool), KeysDistinct dest →
      KeysDistinct (merge_env_pairs dest pairs ci) := by
  induction pairs with
  | nil => intro dest ci h; exact h
  | cons p t ih =>
    intro dest ci h
    exact ih (envInsert dest (normalize_env_key p.1 ci) p.2) ci
      (envInsert_keysDistinct _ _ _ h)

/-- Membership in a merged map only ever exposes keys produced by
normalize_env_key on some input key. -/
def KeysUpper (m : List (OsStr × OsStr)) : Prop :=
  ∀ p ∈ m, (Prod.fst p).map Char.toUpper = Prod.fst p

theorem envInsert_keysUpper (m : List (OsStr × OsStr)) (k v : OsStr)
    (hm : KeysUpper m) (hk : k.map Char.toUpper = k) : KeysUpper (envInsert m k v) := by
  intro p hp
  rcases List.mem_append.mp hp with hleft | hright
  · exact hm p (List.mem_of_mem_filter hleft)
  · rcases List.mem_singleton.mp hright with rfl
    exact hk

theorem merge_env_pairs_keysUpper (pairs : List (OsStr × OsStr)) :
    ∀ (dest : List (OsStr × OsStr)), KeysUpper dest →
      KeysUpper (merge_env_pairs dest pairs true) := by
  induction pairs with
  | nil => intro dest h; exact h
  | cons p t ih =>
    intro dest h
    refine ih (envInsert dest (normalize_env_key p.1 true) p.2) ?_
    exact envInsert_keysUpper _ _ _ h (upperKey_idem p.1)

/-- Claim C6: under case-insensitive key mode build_sidecar_env uppercases
every key before inserting, so keys differing only in ASCII case collapse
to one entry (the concrete Path/PATH/forced-path example from the source
collapses to the single entry PATH=C); and in either mode the merged
output contains exactly one entry per normalized key: the final keys are
pairwise distinct. -/
theorem build_sidecar_env_one_entry_per_key :
    (∀ (inherited login_shell desktop_file : List (OsStr × OsStr))
        (forced_path : Option OsStr) (ci : Bool),
      KeysDistinct (build_sidecar_env inherited login_shell desktop_file forced_path ci))
    ∧ (∀ (inherited login_shell desktop_file : List (OsStr × OsStr))
        (forced_path : Option OsStr),
        ∀ p ∈ build_sidecar_env inherited login_shell desktop_file forced_path true,
          (Prod.fst p).map Char.toUpper = Prod.fst p)
    ∧ build_sidecar_env [("Path".data, "A".data)] [("PATH".data, "B".data)] []
        (some "C".data) true = [("PATH".data, "C".data)] := by
  refine ⟨?_, ?_, by decide⟩
  · intro inherited login_shell desktop_file forced_path ci
    have hbase : KeysDistinct ([] : List (OsStr × OsStr)) := List.Pairwise.nil
    have h1 := merge_env_pairs_keysDistinct inherited [] ci hbase
    have h2 := merge_env_pairs_keysDistinct login_shell _ ci h1
    have h3 := merge_env_pairs_keysDistinct desktop_file _ ci h2
    cases forced_path with
    | none => exact h3
    | some path => exact envInsert_keysDistinct _ _ _ h3
  · intro inherited login_shell desktop_file forced_path
    have hbase : KeysUpper ([] : List (OsStr × OsStr)) := by
      intro p hp
      cases hp
    have h1 := merge_env_pairs_keysUpper inherited [] hbase
    have h2 := merge_env_pairs_keysUpper login_shell _ h1
    have h3 := merge_env_pairs_keysUpper desktop_file _ h2
    cases forced_path with
    | none => exact h3
    | some path =>
      exact envInsert_keysUpper _ _ _ h3 (upperKey_idem "PATH".data)

/-- Witness instantiating claim C6 at the concrete collapsed entry. -/
theorem build_sidecar_env_one_entry_per_key_witness :
    ("PATH".data : OsStr).map Char.toUpper = "PATH".data :=
  build_sidecar_env_one_entry_per_key.2.1 [("Path".data, "A".data)]
    [("PATH".data, "B".data)] [] (some "C".data) ("PATH".data, "C".data) (by decide)

/-! ### NUL-delimited login-shell environment parsing (claim C5).

parse_nul_env from desktop/src-tauri/src/lib.rs lines 221-239, over raw
bytes modelled as List Nat (the NUL byte is 0, the equals sign is 61).
On unix os_string_from_bytes (lines 241-245) is OsString::from_vec, the
identity on the underlying bytes, so keys and values here are the raw
byte segments themselves, preserved byte-for-byte. -/

def parse_env_entry (entry : List Nat) : Option (List Nat × List Nat) :=
  if entry.isEmpty then none
  else
    match positionOf 61 entry with
    | none => none
    | some eq => if eq = 0 then none else some (entry.take eq, entry.drop (eq + 1))

def parse_nul_env (content : List Nat) : List (List Nat × List Nat) :=
  (content.splitOn 0).filterMap parse_env_entry

theorem parse_env_entry_eq_some_iff (entry k v : List Nat) :
    parse_env_entry entry = some (k, v) ↔ entry = k ++ 61 :: v ∧ k ≠ [] ∧ 61 ∉ k := by
  constructor
  · intro h
    unfold parse_env_entry at h
    cases entry with
    | nil => simp at h
    | cons b rest =>
      simp only [List.isEmpty_cons, if_neg Bool.false_ne_true] at h
      cases hpos : positionOf 61 (b :: rest) with
      | none => rw [hpos] at h; exact absurd h (by simp)
      | some eq =>
        rw [hpos] at h
        replace h : (if eq = 0 then none
            else some ((b :: rest).take eq, (b :: rest).drop (eq + 1))) = some (k, v) := h
        by_cases heq0 : eq = 0
        · rw [if_pos heq0] at h
          exact absurd h (by simp)
        · rw [if_neg heq0] at h
          obtain ⟨pre, post, hdec, hlen, hmem⟩ :=
            (positionOf_eq_some_iff 61 (b :: rest) eq).mp hpos
          have htake : (b :: rest).take eq = pre := by
            rw [hdec]
            exact List.take_left' hlen
          have hdrop : (b :: rest).drop (eq + 1) = post := by
            have hsplit : b :: rest = (pre ++ [61]) ++ post := by
              rw [hdec]
              simp
            rw [hsplit]
            exact List.drop_left' (by simp [hlen])
          rw [htake, hdrop] at h
          injection h with h
          injection h with hk hv
          subst hk
          subst hv
          refine ⟨hdec, ?_, hmem⟩
          intro hnil
          rw [hnil] at hlen
          exact heq0 (by simpa using hlen.symm)
  · rintro ⟨hdec, hne, hmem⟩
    have hpos : positionOf 61 entry = some k.length :=
      (positionOf_eq_some_iff 61 entry k.length).mpr ⟨k, v, hdec, rfl, hmem⟩
    have hlen0 : ¬ k.length = 0 := fun hc => hne (List.length_eq_zero.mp hc)
    have hemp : entry.isEmpty = false := by
      rw [hdec]
      cases k <;> simp
    unfold parse_env_entry
    rw [hemp, hpos]
    simp only [Bool.false_eq_true, if_false, if_neg hlen0]
    have htake : entry.take k.length = k := by
      rw [hdec]
      exact List.take_left k (61 :: v)
    have hdrop : entry.drop (k.length + 1) = v := by
      have hsplit : entry = (k ++ [61]) ++ v := by
        rw [hdec]
        simp
      rw [hsplit]
      exact List.drop_left' (by simp)
    rw [htake, hdrop]

/-- Claim C5: the login-shell environment parser splits its byte stream on
NUL bytes, discards empty segments, discards any segment with no equals
byte or with the equals byte first, and for every kept segment produces
the bytes before the first equals byte as the key and everything after it,
byte-for-byte, as the value: (k, v) is produced exactly when some
NUL-delimited segment is literally k ++ 61 :: v with k nonempty and free
of the equals byte (so the equals byte found is the first one). -/
theorem parse_nul_env_characterization (content k v : List Nat) :
    (k, v) ∈ parse_nul_env content ↔
      ∃ seg ∈ content.splitOn 0, seg = k ++ 61 :: v ∧ k ≠ [] ∧ 61 ∉ k := by
  unfold parse_nul_env
  rw [List.mem_filterMap]
  constructor
  · rintro ⟨seg, hseg, hparse⟩
    exact ⟨seg, hseg, (parse_env_entry_eq_some_iff seg k v).mp hparse⟩
  · rintro ⟨seg, hseg, hprops⟩
    exact ⟨seg, hseg, (parse_env_entry_eq_some_iff seg k v).mpr hprops⟩

/-! ### Override-file parsing (claim C7).

parse_desktop_env_content from desktop/src-tauri/src/lib.rs lines 252-269.
The file text is modelled as List Char; Rust content.lines() with the
subsequent trim is modelled as splitting on the newline character (the
carriage return a Windows line leaves behind is whitespace and is removed
by the very next trim, and empty segments are dropped by the
blank-line check, so the two line iterations keep exactly the same
lines).  str::trim removes every character with the Unicode White_Space
property, exactly the set rustWhitespace accepts, including vertical tab,
form feed and the no-break and typographic spaces that Lean's narrower
Char.isWhitespace would miss. -/

def rustWhitespace (c : Char) : Bool :=
  c.toNat = 0x9 || c.toNat = 0xA || c.toNat = 0xB || c.toNat = 0xC || c.toNat = 0xD
    || c.toNat = 0x20 || c.toNat = 0x85 || c.toNat = 0xA0 || c.toNat = 0x1680
    || (0x2000 ≤ c.toNat && c.toNat ≤ 0x200A)
    || c.toNat = 0x2028 || c.toNat = 0x2029 || c.toNat = 0x202F || c.toNat = 0x205F
    || c.toNat = 0x3000

def trimL (l : List Char) : List Char :=
  ((l.dropWhile rustWhitespace).reverse.dropWhile rustWhitespace).reverse

def parse_desktop_line_core (line : List Char) : Option (OsStr × OsStr) :=
  if line.isEmpty then none
  else if line.head? = some '#' then none
  else
    match positionOf '=' line with
    | none => none
    | some i =>
      if (trimL (line.take i)).isEmpty then none
      else some (trimL (line.take i), trimL (line.drop (i + 1)))

def parse_desktop_env_content (content : List Char) : List (OsStr × OsStr) :=
  (content.splitOn (Char.ofNat 10)).filterMap (fun line => parse_desktop_line_core (trimL line))

theorem parse_desktop_line_core_eq_some_iff (t : List Char) (k v : OsStr) :
    parse_desktop_line_core t = some (k, v) ↔
      t.head? ≠ some '#' ∧
      ∃ kRaw vRaw, t = kRaw ++ '=' :: vRaw ∧ '=' ∉ kRaw ∧
        k = trimL kRaw ∧ k ≠ [] ∧ v = trimL vRaw := by
  constructor
  · intro h
    unfold parse_desktop_line_core at h
    by_cases hemp : t.isEmpty = true
    · rw [if_pos hemp] at h
      exact absurd h (by simp)
    · rw [if_neg hemp] at h
      by_cases hhash : t.head? = some '#'
      · rw [if_pos hhash] at h
        exact absurd h (by simp)
      · rw [if_neg hhash] at h
        cases hpos : positionOf '=' t with
        | none =>
          rw [hpos] at h
          exact absurd h (by simp)
        | some i =>
          rw [hpos] at h
          replace h : (if (trimL (t.take i)).isEmpty then none
              else some (trimL (t.take i), trimL (t.drop (i + 1)))) = some (k, v) := h
          by_cases hkey : (trimL (t.take i)).isEmpty = true
          · rw [if_pos hkey] at h
            exact absurd h (by simp)
          · rw [if_neg hkey] at h
            obtain ⟨pre, post, hdec, hlen, hmem⟩ :=
              (positionOf_eq_some_iff '=' t i).mp hpos
            have htake : t.take i = pre := by
              rw [hdec]
              exact List.take_left' hlen
            have hdrop : t.drop (i + 1) = post := by
              have hsplit : t = (pre ++ ['=']) ++ post := by
                rw [hdec]
                simp
              rw [hsplit]
              exact List.drop_left' (by simp [hlen])
            rw [htake, hdrop] at h
            injection h with h
            injection h with hk hv
            refine ⟨hhash, pre, post, hdec, hmem, hk.symm, ?_, hv.symm⟩
            rw [htake] at hkey
            intro hnil
            rw [← hk] at hnil
            rw [hnil] at hkey
            exact hkey rfl
  · rintro ⟨hhash, kRaw, vRaw, hdec, hmem, hk, hkne, hv⟩
    have hemp : t.isEmpty = false := by
      rw [hdec]
      cases kRaw <;> simp
    have hpos : positionOf '=' t = some kRaw.length :=
      (positionOf_eq_some_iff '=' t kRaw.length).mpr ⟨kRaw, vRaw, hdec, rfl, hmem⟩
    have htake : t.take kRaw.length = kRaw := by
      rw [hdec]
      exact List.take_left kRaw ('=' :: vRaw)
    have hdrop : t.drop (kRaw.length + 1) = vRaw := by
      have hsplit : t = (kRaw ++ ['=']) ++ vRaw := by
        rw [hdec]
        simp
      rw [hsplit]
      exact List.drop_left' (by simp)
    have hkey : (trimL (t.take kRaw.length)).isEmpty = false := by
      rw [htake, ← hk]
      cases k with
      | nil => exact absurd rfl hkne
      | cons a l => simp
    unfold parse_desktop_line_core
    rw [hemp, hpos]
    simp only [Bool.false_eq_true, if_false, if_neg hhash]
    rw [hkey]
    simp only [Bool.false_eq_true, if_false]
    rw [htake, hdrop, ← hk, ← hv]

/-- Concrete override-file text of claim C7: the five lines between the
fences, joined by newlines. -/
def desktopEnvExample : List Char :=
  "# comment\nPATH=/custom/bin\nBADLINE\n=missingkey\nFOO = bar".data

/-- Claim C7: the override-file parser processes the text as KEY=VALUE
lines: blank lines and lines starting with a hash are ignored,
leading and trailing whitespace is trimmed from both key and value, lines
without an equals sign or with an empty key are discarded; a pair (k, v)
is produced exactly when some newline-separated line, once trimmed,
splits at its first equals sign into a part trimming to the nonempty k
and a part trimming to v.  In particular the five example lines yield
exactly PATH=/custom/bin and FOO=bar. -/
theorem parse_desktop_env_content_characterization :
    (∀ (content : List Char) (k v : OsStr),
      (k, v) ∈ parse_desktop_env_content content ↔
        ∃ line ∈ content.splitOn (Char.ofNat 10),
          (trimL line).head? ≠ some '#' ∧
          ∃ kRaw vRaw, trimL line = kRaw ++ '=' :: vRaw ∧ '=' ∉ kRaw ∧
            k = trimL kRaw ∧ k ≠ [] ∧ v = trimL vRaw)
    ∧ parse_desktop_env_content desktopEnvExample =
        [("PATH".data, "/custom/bin".data), ("FOO".data, "bar".data)] := by
  refine ⟨?_, by decide⟩
  intro content k v
  unfold parse_desktop_env_content
  rw [List.mem_filterMap]
  constructor
  · rintro ⟨line, hline, hparse⟩
    exact ⟨line, hline, (parse_desktop_line_core_eq_some_iff (trimL line) k v).mp hparse⟩
  · rintro ⟨line, hline, hprops⟩
    exact ⟨line, hline, (parse_desktop_line_core_eq_some_iff (trimL line) k v).mpr hprops⟩

/-! ### Readiness HTTP response validation (claim C3).

version_response_looks_valid from desktop/src-tauri/src/lib.rs lines
451-464, over the raw response bytes as List Nat.  The Rust code checks
the body after String::from_utf8_lossy for the three quoted identity
substrings; the patterns are pure ASCII, which the lossy conversion maps
one-to-one, so the check is modelled as a byte-level substring search. -/

def strBytes (s : String) : List Nat := s.data.map Char.toNat

def containsSub (l pat : List Nat) : Bool := (findSubIdx pat l).isSome

def bodyHasFields (body : List Nat) : Bool :=
  containsSub body (strBytes "\"version\"") && containsSub body (strBytes "\"commit\"")
    && containsSub body (strBytes "\"build_date\"")

def version_response_looks_valid (response : List Nat) : Bool :=
  if !((strBytes "HTTP/1.1 200").isPrefixOf response
      || (strBytes "HTTP/1.0 200").isPrefixOf response) then false
  else
    match findSubIdx (strBytes "\r\n\r\n") response with
    | some idx => bodyHasFields (response.drop (idx + 4))
    | none =>
      match findSubIdx (strBytes "\n\n") response with
      | some idx => bodyHasFields (response.drop (idx + 2))
      | none => false

/-- The validator exactly as claim C3 words it: the body starts after the
first blank-line header terminator, a terminator being either the
four-byte CRLFCRLF or the two-byte LFLF sequence, whichever occurs
first in the response. -/
def firstBlankLineTerminator : List Nat → Option (Nat × Nat)
  | [] => none
  | a :: t =>
    if (strBytes "\r\n\r\n").isPrefixOf (a :: t) then some (0, 4)
    else if (strBytes "\n\n").isPrefixOf (a :: t) then some (0, 2)
    else (firstBlankLineTerminator t).map (fun p => (p.1 + 1, p.2))

def version_response_valid_as_claimed (response : List Nat) : Bool :=
  ((strBytes "HTTP/1.1 200").isPrefixOf response
      || (strBytes "HTTP/1.0 200").isPrefixOf response)
    && match firstBlankLineTerminator response with
       | some p => bodyHasFields (response.drop (p.1 + p.2))
       | none => false

/-- Occurrence of the pattern at index i. -/
def OccursAt {α : Type} (pat l : List α) (i : Nat) : Prop := pat <+: l.drop i

theorem findSubIdx_eq_some_iff {α : Type} [DecidableEq α] (pat l : List α) (i : Nat) :
    findSubIdx pat l = some i ↔
      OccursAt pat l i ∧ ∀ j, j < i → ¬ OccursAt pat l j := by
  induction l generalizing i with
  | nil =>
    unfold findSubIdx
    by_cases hp : pat.isPrefixOf ([] : List α)
    · rw [if_pos hp]
      cases i with
      | zero =>
        simp only [OccursAt, List.drop_nil]
        simp only [ List.isPrefixOf_iff_prefix] at hp
        simp [hp]
      | succ j =>
        simp only [OccursAt, List.drop_nil]
        constructor
        · intro h
          exact absurd h (by simp)
        · rintro ⟨_, hall⟩
          exact absurd (( List.isPrefixOf_iff_prefix).mp hp) (hall 0 (Nat.succ_pos j))
    · rw [if_neg hp]
      simp only [OccursAt, List.drop_nil]
      rw [ List.isPrefixOf_iff_prefix] at hp
      simp [hp]
  | cons a t ih =>
    unfold findSubIdx
    by_cases hp : pat.isPrefixOf (a :: t)
    · rw [if_pos hp]
      rw [ List.isPrefixOf_iff_prefix] at hp
      cases i with
      | zero => simp [OccursAt, hp]
      | succ j =>
        constructor
        · intro h
          exact absurd h (by simp)
        · rintro ⟨_, hall⟩
          exact absurd hp (hall 0 (Nat.succ_pos j))
    · rw [if_neg hp]
      rw [ List.isPrefixOf_iff_prefix] at hp
      cases i with
      | zero =>
        simp only [Option.map_eq_some']
        constructor
        · rintro ⟨j, _, hji⟩
          exact absurd hji (by simp)
        · rintro ⟨hocc, _⟩
          exact absurd hocc hp
      | succ j =>
        simp only [Option.map_eq_some']
        constructor
        · rintro ⟨j0, hj0, hji⟩
          have hjj : j0 = j := by omega
          rw [hjj] at hj0
          obtain ⟨hocc, hall⟩ := (ih j).mp hj0
          refine ⟨hocc, ?_⟩
          intro m hm
          cases m with
          | zero => exact hp
          | succ m0 => exact hall m0 (by omega)
        · rintro ⟨hocc, hall⟩
          refine ⟨j, (ih j).mpr ⟨hocc, ?_⟩, rfl⟩
          intro m hm
          exact hall (m + 1) (by omega)

theorem findSubIdx_eq_none_iff {α : Type} [DecidableEq α] (pat l : List α) :
    findSubIdx pat l = none ↔ ∀ i, ¬ OccursAt pat l i := by
  induction l with
  | nil =>
    unfold findSubIdx
    by_cases hp : pat.isPrefixOf ([] : List α)
    · rw [if_pos hp, List.isPrefixOf_iff_prefix] at *
      constructor
      · intro h
        exact absurd h (by simp)
      · intro h
        exact absurd hp (by simpa [OccursAt] using h 0)
    · rw [if_neg hp]
      rw [ List.isPrefixOf_iff_prefix] at hp
      simp [OccursAt, hp]
  | cons a t ih =>
    unfold findSubIdx
    by_cases hp : pat.isPrefixOf (a :: t)
    · rw [if_pos hp]
      rw [ List.isPrefixOf_iff_prefix] at hp
      constructor
      · intro h
        exact absurd h (by simp)
      · intro h
        exact absurd hp (h 0)
    · rw [if_neg hp]
      rw [ List.isPrefixOf_iff_prefix] at hp
      simp only [Option.map_eq_none', ih]
      constructor
      · intro h i
        cases i with
        | zero => exact hp
        | succ j => exact h j
      · intro h j
        exact h (j + 1)

theorem infix_iff_occursAt {α : Type} (pat l : List α) :
    pat <:+: l ↔ ∃ i, OccursAt pat l i := by
  constructor
  · rintro ⟨s, t, hst⟩
    refine ⟨s.length, ?_⟩
    unfold OccursAt
    have : l.drop s.length = pat ++ t := by
      rw [← hst, List.append_assoc]
      exact List.drop_left s (pat ++ t)
    rw [this]
    exact List.prefix_append pat t
  · rintro ⟨i, hocc⟩
    obtain ⟨t, ht⟩ := hocc
    exact ⟨l.take i, t, by rw [List.append_assoc, ht, List.take_append_drop]⟩

theorem containsSub_iff (l pat : List Nat) :
    containsSub l pat = true ↔ pat <:+: l := by
  unfold containsSub
  rw [Option.isSome_iff_exists, infix_iff_occursAt]
  constructor
  · rintro ⟨i, hi⟩
    exact ⟨i, ((findSubIdx_eq_some_iff pat l i).mp hi).1⟩
  · rintro ⟨i, hocc⟩
    cases hfind : findSubIdx pat l with
    | none => exact absurd hocc ((findSubIdx_eq_none_iff pat l).mp hfind i)
    | some j => exact ⟨j, rfl⟩

/-- The three identity fields the probe requires, as plain substring
facts about the body bytes. -/
def HasIdentityFields (body : List Nat) : Prop :=
  strBytes "\"version\"" <:+: body ∧ strBytes "\"commit\"" <:+: body
    ∧ strBytes "\"build_date\"" <:+: body

theorem bodyHasFields_iff (body : List Nat) :
    bodyHasFields body = true ↔ HasIdentityFields body := by
  unfold bodyHasFields HasIdentityFields
  rw [Bool.and_eq_true, Bool.and_eq_true]
  rw [containsSub_iff, containsSub_iff, containsSub_iff]
  constructor
  · rintro ⟨⟨h1, h2⟩, h3⟩
    exact ⟨h1, h2, h3⟩
  · rintro ⟨h1, h2, h3⟩
    exact ⟨⟨h1, h2⟩, h3⟩

/-- Claim C3 counterexample input: a 200 response whose headers end with
a bare LFLF before the identity fields, followed by a later CRLFCRLF and
a field-free tail.  Its first blank-line terminator is the LFLF, after
which all three fields occur, so the claim calls it valid; the code
splits at the CRLFCRLF and rejects it. -/
def c3CounterInput : List Nat :=
  strBytes "HTTP/1.1 200 OK\n\n\"version\"\"commit\"\"build_date\"\r\n\r\nrest"

/-- Claim C3, as stated, is false at c3CounterInput: the validator
rejects the response even though its status line is a 200 and the body
after the first blank-line header terminator (the LFLF) contains all
three identity substrings. -/
theorem version_response_counterexample :
    version_response_looks_valid c3CounterInput = false
    ∧ version_response_valid_as_claimed c3CounterInput = true := by
  refine ⟨by decide, by decide⟩

/-- Claim C3 amended: a response is accepted if and only if its status
line starts with an HTTP/1.1 200 or HTTP/1.0 200 prefix AND the body
contains the three literal identity substrings, where the body starts
after the FIRST CRLFCRLF when the response contains a CRLFCRLF anywhere,
and only in a response with no CRLFCRLF at all after the first LFLF; a
response with neither terminator is invalid. -/
theorem version_response_looks_valid_iff (response : List Nat) :
    version_response_looks_valid response = true ↔
      (strBytes "HTTP/1.1 200" <+: response ∨ strBytes "HTTP/1.0 200" <+: response) ∧
      ((∃ i, OccursAt (strBytes "\r\n\r\n") response i ∧
          (∀ j, j < i → ¬ OccursAt (strBytes "\r\n\r\n") response j) ∧
          HasIdentityFields (response.drop (i + 4)))
        ∨ ((∀ i, ¬ OccursAt (strBytes "\r\n\r\n") response i) ∧
          ∃ i, OccursAt (strBytes "\n\n") response i ∧
            (∀ j, j < i → ¬ OccursAt (strBytes "\n\n") response j) ∧
            HasIdentityFields (response.drop (i + 2)))) := by
  unfold version_response_looks_valid
  by_cases hstatus : ((strBytes "HTTP/1.1 200").isPrefixOf response
      || (strBytes "HTTP/1.0 200").isPrefixOf response) = true
  · rw [hstatus]
    have hstatus2 : strBytes "HTTP/1.1 200" <+: response
        ∨ strBytes "HTTP/1.0 200" <+: response := by
      rcases Bool.or_eq_true_iff.mp hstatus with h | h
      · exact Or.inl (( List.isPrefixOf_iff_prefix).mp h)
      · exact Or.inr (( List.isPrefixOf_iff_prefix).mp h)
    simp only [Bool.not_true, Bool.false_eq_true, if_false]
    cases hcrlf : findSubIdx (strBytes "\r\n\r\n") response with
    | some idx =>
      obtain ⟨hocc, hfirst⟩ := (findSubIdx_eq_some_iff _ _ _).mp hcrlf
      rw [bodyHasFields_iff]
      constructor
      · intro h
        exact ⟨hstatus2, Or.inl ⟨idx, hocc, hfirst, h⟩⟩
      · rintro ⟨_, hbody⟩
        rcases hbody with ⟨i, hiocc, hifirst, hfields⟩ | ⟨hnone, _⟩
        · have : i = idx := by
            by_contra hne
            rcases Nat.lt_or_ge i idx with hlt | hge
            · exact hfirst i hlt hiocc
            · have : idx < i := lt_of_le_of_ne hge (fun hc => hne hc.symm)
              exact hifirst idx this hocc
          rw [← this]
          exact hfields
        · exact absurd hocc (hnone idx)
    | none =>
      have hnone := (findSubIdx_eq_none_iff _ _).mp hcrlf
      cases hlf : findSubIdx (strBytes "\n\n") response with
      | some idx =>
        obtain ⟨hocc, hfirst⟩ := (findSubIdx_eq_some_iff _ _ _).mp hlf
        rw [bodyHasFields_iff]
        constructor
        · intro h
          exact ⟨hstatus2, Or.inr ⟨hnone, idx, hocc, hfirst, h⟩⟩
        · rintro ⟨_, hbody⟩
          rcases hbody with ⟨i, hiocc, _, _⟩ | ⟨_, i, hiocc, hifirst, hfields⟩
          · exact absurd hiocc (hnone i)
          · have : i = idx := by
              by_contra hne
              rcases Nat.lt_or_ge i idx with hlt | hge
              · exact hfirst i hlt hiocc
              · have : idx < i := lt_of_le_of_ne hge (fun hc => hne hc.symm)
                exact hifirst idx this hocc
            rw [← this]
            exact hfields
      | none =>
        have hnonelf := (findSubIdx_eq_none_iff _ _).mp hlf
        constructor
        · intro h
          exact absurd h (by simp)
        · rintro ⟨_, hbody⟩
          rcases hbody with ⟨i, hiocc, _, _⟩ | ⟨_, i, hiocc, _, _⟩
          · exact absurd hiocc (hnone i)
          · exact absurd hiocc (hnonelf i)
  · have hstatusf : ((strBytes "HTTP/1.1 200").isPrefixOf response
        || (strBytes "HTTP/1.0 200").isPrefixOf response) = false :=
      Bool.eq_false_iff.mpr hstatus
    rw [hstatusf]
    simp only [Bool.not_false, if_true]
    constructor
    · intro h
      exact absurd h (by simp)
    · rintro ⟨hst, _⟩
      rcases hst with h | h
      · exact (hstatus (Bool.or_eq_true_iff.mpr
          (Or.inl (( List.isPrefixOf_iff_prefix).mpr h)))).elim
      · exact (hstatus (Bool.or_eq_true_iff.mpr
          (Or.inr (( List.isPrefixOf_iff_prefix).mpr h)))).elim

/-! ### Ready-signal line parsing (claim C4).

parse_listening_port from desktop/src-tauri/src/lib.rs lines 382-391,
with HOST fixed to 127.0.0.1, so the marker substring is literally
listening at http://127.0.0.1: as produced by the format call.  Rust's
digits.parse::<u16>() on a nonempty all-digit string succeeds exactly
when the decimal value fits in u16, i.e. is at most 65535, and fails on
overflow, which is the only way such a string can fail to parse. -/

def listening_marker : List Char := "listening at http://127.0.0.1:".data

def digitsToNat (ds : List Char) : Nat :=
  ds.foldl (fun acc c => 10 * acc + (c.toNat - 48)) 0

def parse_listening_port (line : List Char) : Option Nat :=
  match findSubIdx listening_marker line with
  | none => none
  | some idx =>
    let digits := (line.drop (idx + listening_marker.length)).takeWhile Char.isDigit
    if digits.isEmpty then none
    else if digitsToNat digits ≤ 65535 then some (digitsToNat digits) else none

/-- The acceptance condition exactly as claim C4 words it: the line
contains the marker substring followed immediately by at least one
digit. -/
def line_has_marker_digit (line : List Char) : Bool :=
  (List.range (line.length + 1)).any (fun i =>
    listening_marker.isPrefixOf (line.drop i)
      && (match (line.drop (i + listening_marker.length)).head? with
          | some c => c.isDigit
          | none => false))

/-- Claim C4 counterexample input: the marker followed by the digit run
99999, which does not fit in a u16 port. -/
def c4CounterInput : List Char :=
  "agentsview dev listening at http://127.0.0.1:99999 (started in 1.2s)".data

/-- Claim C4, as stated, is false at c4CounterInput: the line contains
the marker substring followed immediately by at least one digit, yet
parse_listening_port returns no port, because the digit run 99999
overflows the u16 port type. -/
theorem parse_listening_port_counterexample :
    parse_listening_port c4CounterInput = none
    ∧ line_has_marker_digit c4CounterInput = true := by
  refine ⟨by decide, by decide⟩

theorem takeWhile_decomp {α : Type} (q : α → Bool) (ds : List α) :
    ∀ (l rest : List α),
      (l = ds ++ rest ∧ (∀ c ∈ ds, q c = true) ∧ (∀ c, rest.head? = some c → q c = false)) ↔
        (ds = l.takeWhile q ∧ rest = l.dropWhile q) := by
  induction ds with
  | nil =>
    intro l rest
    constructor
    · rintro ⟨hdec, _, hrest⟩
      rw [List.nil_append] at hdec
      subst hdec
      cases l with
      | nil => exact ⟨rfl, rfl⟩
      | cons a t =>
        have hqa : q a = false := hrest a rfl
        constructor
        · rw [List.takeWhile_cons_of_neg (by simp [hqa])]
        · rw [List.dropWhile_cons_of_neg (by simp [hqa])]
    · rintro ⟨hds, hrest⟩
      refine ⟨?_, ?_, ?_⟩
      · show l = rest
        have hsplit := List.takeWhile_append_dropWhile q l
        rw [← hds] at hsplit
        rw [List.nil_append] at hsplit
        rw [hrest, hsplit]
      · intro c hc
        cases hc
      · intro c hc
        cases l with
        | nil =>
          rw [hrest] at hc
          exact absurd hc (by simp [List.dropWhile])
        | cons a t =>
          by_cases hqa : q a = true
          · rw [List.takeWhile_cons_of_pos hqa] at hds
            exact absurd hds (by simp)
          · rw [hrest, List.dropWhile_cons_of_neg (by simp [hqa])] at hc
            injection hc with hc
            rw [← hc]
            exact Bool.eq_false_iff.mpr hqa
  | cons d ds ih =>
    intro l rest
    constructor
    · rintro ⟨hdec, hall, hrest⟩
      have hqd : q d = true := hall d (List.mem_cons_self d ds)
      subst hdec
      obtain ⟨h1, h2⟩ := (ih (ds ++ rest) rest).mp
        ⟨rfl, fun c hc => hall c (List.mem_cons_of_mem d hc), hrest⟩
      constructor
      · rw [List.cons_append, List.takeWhile_cons_of_pos hqd, ← h1]
      · rw [List.cons_append, List.dropWhile_cons_of_pos hqd, ← h2]
    · rintro ⟨hds, hrest⟩
      cases l with
      | nil => exact absurd hds (by simp [List.takeWhile])
      | cons a t =>
        by_cases hqa : q a = true
        · rw [List.takeWhile_cons_of_pos hqa] at hds
          injection hds with hda hds
          rw [List.dropWhile_cons_of_pos hqa] at hrest
          obtain ⟨hdec, hall, hrest2⟩ := (ih t rest).mpr ⟨hds, hrest⟩
          subst hda
          refine ⟨by rw [List.cons_append, hdec], ?_, hrest2⟩
          intro c hc
          rcases List.mem_cons.mp hc with rfl | hc
          · exact hqa
          · exact hall c hc
        · rw [List.takeWhile_cons_of_neg (by simp [hqa])] at hds
          exact absurd hds (by simp)

/-- Claim C4 amended: parse_listening_port returns a port exactly when
the digits immediately following the FIRST occurrence of the substring
listening at http://127.0.0.1: are at least one and their decimal value
fits in a u16, i.e. is at most 65535, and the returned port is that
value; in particular the dev ready line yields 18080 and the
probe-successful line yields no port. -/
theorem parse_listening_port_iff :
    (∀ (line : List Char) (p : Nat),
      parse_listening_port line = some p ↔
        ∃ i, OccursAt listening_marker line i ∧
          (∀ j, j < i → ¬ OccursAt listening_marker line j) ∧
          ∃ ds rest, line.drop (i + listening_marker.length) = ds ++ rest ∧
            ds ≠ [] ∧ (∀ c ∈ ds, c.isDigit = true) ∧
            (∀ c, rest.head? = some c → c.isDigit = false) ∧
            digitsToNat ds = p ∧ p ≤ 65535)
    ∧ parse_listening_port
        "agentsview dev listening at http://127.0.0.1:18080 (started in 1.2s)".data
        = some 18080
    ∧ parse_listening_port
        "probe successful for http://127.0.0.1:19090/health".data = none := by
  refine ⟨?_, by decide, by decide⟩
  intro line p
  unfold parse_listening_port
  cases hfind : findSubIdx listening_marker line with
  | none =>
    have hnone := (findSubIdx_eq_none_iff _ _).mp hfind
    constructor
    · intro h
      exact absurd h (by simp)
    · rintro ⟨i, hocc, _⟩
      exact absurd hocc (hnone i)
  | some idx =>
    obtain ⟨hocc, hfirst⟩ := (findSubIdx_eq_some_iff _ _ _).mp hfind
    constructor
    · intro h
      replace h : (if ((line.drop (idx + listening_marker.length)).takeWhile
            Char.isDigit).isEmpty = true then none
          else if digitsToNat ((line.drop (idx + listening_marker.length)).takeWhile
              Char.isDigit) ≤ 65535
            then some (digitsToNat ((line.drop (idx + listening_marker.length)).takeWhile
              Char.isDigit))
            else none) = some p := h
      by_cases hemp : ((line.drop (idx + listening_marker.length)).takeWhile
          Char.isDigit).isEmpty = true
      · rw [if_pos hemp] at h
        exact absurd h (by simp)
      · rw [if_neg hemp] at h
        by_cases hle : digitsToNat ((line.drop (idx + listening_marker.length)).takeWhile
            Char.isDigit) ≤ 65535
        · rw [if_pos hle] at h
          injection h with h
          refine ⟨idx, hocc, hfirst,
            (line.drop (idx + listening_marker.length)).takeWhile Char.isDigit,
            (line.drop (idx + listening_marker.length)).dropWhile Char.isDigit,
            ?_, ?_, ?_, ?_, h, h ▸ hle⟩
          · obtain ⟨hdec, _, _⟩ := (takeWhile_decomp Char.isDigit _ _ _).mpr ⟨rfl, rfl⟩
            exact hdec
          · intro hc
            rw [hc] at hemp
            exact hemp rfl
          · obtain ⟨_, hall, _⟩ := (takeWhile_decomp Char.isDigit _ _ _).mpr ⟨rfl, rfl⟩
            exact hall
          · obtain ⟨_, _, hrest⟩ := (takeWhile_decomp Char.isDigit _ _ _).mpr ⟨rfl, rfl⟩
            exact hrest
        · rw [if_neg hle] at h
          exact absurd h (by simp)
    · rintro ⟨i, hiocc, hifirst, ds, rest, hdec, hne, hall, hrest, hval, hle⟩
      have hidx : i = idx := by
        by_contra hneq
        rcases Nat.lt_or_ge i idx with hlt | hge
        · exact hfirst i hlt hiocc
        · have : idx < i := lt_of_le_of_ne hge (fun hc => hneq hc.symm)
          exact hifirst idx this hocc
      rw [hidx] at hdec
      obtain ⟨hds, _⟩ := (takeWhile_decomp Char.isDigit ds
        (line.drop (idx + listening_marker.length)) rest).mp ⟨hdec, hall, hrest⟩
      show (if ((line.drop (idx + listening_marker.length)).takeWhile
            Char.isDigit).isEmpty = true then none
          else if digitsToNat ((line.drop (idx + listening_marker.length)).takeWhile
              Char.isDigit) ≤ 65535
            then some (digitsToNat ((line.drop (idx + listening_marker.length)).takeWhile
              Char.isDigit))
            else none) = some p
      rw [← hds]
      have hemp : ds.isEmpty = false := by
        cases ds with
        | nil => exact absurd rfl hne
        | cons a t => rfl
      rw [hemp]
      simp only [Bool.false_eq_true, if_false]
      rw [hval, if_pos hle]

/-! ### Startup notification race (claim C2).

forward_sidecar_logs from desktop/src-tauri/src/lib.rs lines 310-359.
The event-forwarding loop is a single sequential task; the only
concurrent actor is the timeout-guard thread, which after the fixed
ready timeout loads the startup_handled flag and, if it is still false,
reports a timeout WITHOUT storing true.  The interleaving is modelled by
running the guard's check after the first k forwarded events for an
arbitrary k (a k past the end of the list models the guard firing after
the stream ended).  The stdout branch's separate load and store are
indistinguishable from event-level interleaving here because the guard
thread never writes the flag.  A user-visible notification is recorded
for the ready redirect, the early-exit status message, and the timeout
status message. -/

inductive SidecarEvent where
  | stdout (line : List Char)
  | stderr (line : List Char)
  | terminated
  | err (msg : List Char)
deriving DecidableEq

inductive Notification where
  | ready (port : Nat)
  | earlyExit
  | timedOut
deriving DecidableEq

structure ForwardState where
  handled : Bool
  stopped : Bool
  notifs : List Notification
deriving DecidableEq

def initialForwardState : ForwardState := ⟨false, false, []⟩

def stepEvent (s : ForwardState) : SidecarEvent → ForwardState
  | .stdout line =>
    if s.stopped then s
    else if s.handled then s
    else
      match parse_listening_port line with
      | some port => { s with handled := true, notifs := s.notifs ++ [.ready port] }
      | none => s
  | .stderr _ => s
  | .err _ => s
  | .terminated =>
    if s.stopped then s
    else if s.handled then { s with stopped := true }
    else { s with handled := true, stopped := true, notifs := s.notifs ++ [.earlyExit] }

def runEvents (s : ForwardState) (events : List SidecarEvent) : ForwardState :=
  events.foldl stepEvent s

def timeoutCheck (s : ForwardState) : ForwardState :=
  if s.handled then s else { s with notifs := s.notifs ++ [.timedOut] }

def forward_run (events : List SidecarEvent) (k : Nat) : ForwardState :=
  runEvents (timeoutCheck (runEvents initialForwardState (events.take k))) (events.drop k)

def isStartupNotif : Notification → Bool
  | .ready _ => true
  | .earlyExit => true
  | .timedOut => false

def isTimeoutNotif : Notification → Bool
  | .ready _ => false
  | .earlyExit => false
  | .timedOut => true

/-- A ready line the backend prints on its stdout when it starts. -/
def c2ReadyLine : List Char :=
  "agentsview dev listening at http://127.0.0.1:8080 (started in 1.2s)".data

/-- Claim C2, as stated, is false on the code: in the interleaving where
the timeout guard fires before the backend's ready line is forwarded, the
guard reports the timeout without marking the startup flag handled, and
the later ready line is then reported as well, so two of the three
startup outcomes produce a user-visible notification. -/
theorem forward_run_counterexample :
    (forward_run [SidecarEvent.stdout c2ReadyLine] 0).notifs
      = [Notification.timedOut, Notification.ready 8080] := by
  decide

/-- The flag invariant: a stopped loop has a handled flag, and the number
of reported startup outcomes (ready or early-exit) is exactly the flag. -/
def FlagInv (s : ForwardState) : Prop :=
  (s.stopped = true → s.handled = true)
  ∧ s.notifs.countP isStartupNotif = (if s.handled then 1 else 0)

theorem stepEvent_inv (s : ForwardState) (e : SidecarEvent) (h : FlagInv s) :
    FlagInv (stepEvent s e) := by
  obtain ⟨hsh, hcount⟩ := h
  cases e with
  | stdout line =>
    simp only [stepEvent]
    by_cases hstop : s.stopped = true
    · rw [if_pos hstop]
      exact ⟨hsh, hcount⟩
    · rw [if_neg hstop]
      by_cases hh : s.handled = true
      · rw [if_pos hh]
        exact ⟨hsh, hcount⟩
      · rw [if_neg hh]
        cases parse_listening_port line with
        | none => exact ⟨hsh, hcount⟩
        | some port =>
          refine ⟨fun _ => rfl, ?_⟩
          rw [List.countP_append]
          simp only [Bool.not_eq_true] at hh
          rw [hh] at hcount
          simp [hcount, isStartupNotif, List.countP_cons]
  | stderr line => exact ⟨hsh, hcount⟩
  | err msg => exact ⟨hsh, hcount⟩
  | terminated =>
    simp only [stepEvent]
    by_cases hstop : s.stopped = true
    · rw [if_pos hstop]
      exact ⟨hsh, hcount⟩
    · rw [if_neg hstop]
      by_cases hh : s.handled = true
      · rw [if_pos hh]
        exact ⟨fun _ => hh, hcount⟩
      · rw [if_neg hh]
        refine ⟨fun _ => rfl, ?_⟩
        rw [List.countP_append]
        simp only [Bool.not_eq_true] at hh
        rw [hh] at hcount
        simp [hcount, isStartupNotif, List.countP_cons]

theorem stepEvent_timeoutCount (s : ForwardState) (e : SidecarEvent) :
    (stepEvent s e).notifs.countP isTimeoutNotif = s.notifs.countP isTimeoutNotif := by
  cases e with
  | stdout line =>
    simp only [stepEvent]
    by_cases hstop : s.stopped = true
    · rw [if_pos hstop]
    · rw [if_neg hstop]
      by_cases hh : s.handled = true
      · rw [if_pos hh]
      · rw [if_neg hh]
        cases parse_listening_port line with
        | none => rfl
        | some port =>
          simp [List.countP_append, isTimeoutNotif, List.countP_cons]
  | stderr line => rfl
  | err msg => rfl
  | terminated =>
    simp only [stepEvent]
    by_cases hstop : s.stopped = true
    · rw [if_pos hstop]
    · rw [if_neg hstop]
      by_cases hh : s.handled = true
      · rw [if_pos hh]
      · rw [if_neg hh]
        simp [List.countP_append, isTimeoutNotif, List.countP_cons]

theorem stepEvent_handled_mono (s : ForwardState) (e : SidecarEvent)
    (h : s.handled = true) : (stepEvent s e).handled = true := by
  cases e with
  | stdout line =>
    simp only [stepEvent]
    by_cases hstop : s.stopped = true
    · rw [if_pos hstop]
      exact h
    · rw [if_neg hstop, if_pos h]
      exact h
  | stderr line => exact h
  | err msg => exact h
  | terminated =>
    simp only [stepEvent]
    by_cases hstop : s.stopped = true
    · rw [if_pos hstop]
      exact h
    · rw [if_neg hstop, if_pos h]
      exact h

theorem runEvents_inv (events : List SidecarEvent) :
    ∀ (s : ForwardState), FlagInv s → FlagInv (runEvents s events) := by
  induction events with
  | nil => intro s h; exact h
  | cons e es ih => intro s h; exact ih (stepEvent s e) (stepEvent_inv s e h)

theorem runEvents_timeoutCount (events : List SidecarEvent) :
    ∀ (s : ForwardState),
      (runEvents s events).notifs.countP isTimeoutNotif
        = s.notifs.countP isTimeoutNotif := by
  induction events with
  | nil => intro s; rfl
  | cons e es ih =>
    intro s
    calc (runEvents (stepEvent s e) es).notifs.countP isTimeoutNotif
        = (stepEvent s e).notifs.countP isTimeoutNotif := ih (stepEvent s e)
      _ = s.notifs.countP isTimeoutNotif := stepEvent_timeoutCount s e

theorem runEvents_handled_mono (events : List SidecarEvent) :
    ∀ (s : ForwardState), s.handled = true → (runEvents s events).handled = true := by
  induction events with
  | nil => intro s h; exact h
  | cons e es ih => intro s h; exact ih (stepEvent s e) (stepEvent_handled_mono s e h)

theorem runEvents_handled_of_terminated (events : List SidecarEvent) :
    ∀ (s : ForwardState), FlagInv s → SidecarEvent.terminated ∈ events →
      (runEvents s events).handled = true := by
  induction events with
  | nil => intro s _ hmem; cases hmem
  | cons e es ih =>
    intro s hinv hmem
    rcases List.mem_cons.mp hmem with rfl | hmem
    · have hnext : (stepEvent s SidecarEvent.terminated).handled = true := by
        simp only [stepEvent]
        by_cases hstop : s.stopped = true
        · rw [if_pos hstop]
          exact hinv.1 hstop
        · rw [if_neg hstop]
          by_cases hh : s.handled = true
          · rw [if_pos hh]
            exact hh
          · rw [if_neg hh]
      exact runEvents_handled_mono es _ hnext
    · exact ih (stepEvent s e) (stepEvent_inv s e hinv) hmem

theorem timeoutCheck_inv (s : ForwardState) (h : FlagInv s) : FlagInv (timeoutCheck s) := by
  obtain ⟨hsh, hcount⟩ := h
  unfold timeoutCheck
  by_cases hh : s.handled = true
  · rw [if_pos hh]
    exact ⟨hsh, hcount⟩
  · rw [if_neg hh]
    refine ⟨hsh, ?_⟩
    rw [List.countP_append]
    simp [hcount, isStartupNotif, List.countP_cons]

theorem timeoutCheck_handled (s : ForwardState) :
    (timeoutCheck s).handled = s.handled := by
  unfold timeoutCheck
  by_cases hh : s.handled = true
  · rw [if_pos hh]
  · rw [if_neg hh]

theorem timeoutCheck_timeoutCount (s : ForwardState) :
    (timeoutCheck s).notifs.countP isTimeoutNotif
      ≤ s.notifs.countP isTimeoutNotif + 1 := by
  unfold timeoutCheck
  by_cases hh : s.handled = true
  · rw [if_pos hh]
    omega
  · rw [if_neg hh]
    simp [List.countP_append, List.countP_cons, isTimeoutNotif]

/-- Claim C2 amended: in every interleaving, at most one of the two
flag-guarded startup outcomes (ready-detected, early-exit) is reported,
and the timeout notification is reported at most once; but because the
timeout guard reports without setting the flag, an interleaving where the
guard fires first can see a timeout notification FOLLOWED by a ready or
early-exit notification, so up to two user-visible notifications can
occur.  When the event stream contains a termination event, exactly one
of ready-detected or early-exit is reported. -/
theorem forward_run_notifications (events : List SidecarEvent) (k : Nat) :
    (forward_run events k).notifs.countP isStartupNotif ≤ 1
    ∧ (forward_run events k).notifs.countP isTimeoutNotif ≤ 1
    ∧ (SidecarEvent.terminated ∈ events →
        (forward_run events k).notifs.countP isStartupNotif = 1) := by
  have hinv0 : FlagInv initialForwardState := by
    refine ⟨fun hc => absurd hc (by simp [initialForwardState]), ?_⟩
    simp [initialForwardState]
  have hinv1 := runEvents_inv (events.take k) initialForwardState hinv0
  have hinv2 := timeoutCheck_inv _ hinv1
  have hinv3 := runEvents_inv (events.drop k) _ hinv2
  refine ⟨?_, ?_, ?_⟩
  · unfold forward_run
    rw [hinv3.2]
    by_cases hh : (runEvents (timeoutCheck (runEvents initialForwardState
        (events.take k))) (events.drop k)).handled = true
    · rw [if_pos hh]
    · rw [if_neg hh]
      omega
  · have h1 : (runEvents initialForwardState (events.take k)).notifs.countP isTimeoutNotif
        = 0 := by
      rw [runEvents_timeoutCount]
      simp [initialForwardState]
    calc (forward_run events k).notifs.countP isTimeoutNotif
        = (timeoutCheck (runEvents initialForwardState
            (events.take k))).notifs.countP isTimeoutNotif := by
          unfold forward_run
          rw [runEvents_timeoutCount]
      _ ≤ (runEvents initialForwardState (events.take k)).notifs.countP isTimeoutNotif
            + 1 := timeoutCheck_timeoutCount _
      _ ≤ 1 := by omega
  · intro hmem
    have hsplit : SidecarEvent.terminated ∈ events.take k
        ∨ SidecarEvent.terminated ∈ events.drop k := by
      rcases List.mem_append.mp
          (by rw [List.take_append_drop k events]; exact hmem) with h | h
      · exact Or.inl h
      · exact Or.inr h
    have hhandled : (forward_run events k).handled = true := by
      unfold forward_run
      rcases hsplit with h | h
      · apply runEvents_handled_mono
        rw [timeoutCheck_handled]
        exact runEvents_handled_of_terminated (events.take k) initialForwardState hinv0 h
      · exact runEvents_handled_of_terminated (events.drop k) _ hinv2 h
    unfold forward_run
    rw [hinv3.2]
    simp only [forward_run] at hhandled
    rw [if_pos hhandled]

/-- Witness instantiating the amended claim C2: a stream that terminates
immediately reports exactly the early-exit outcome. -/
theorem forward_run_notifications_witness :
    (forward_run [SidecarEvent.terminated] 1).notifs.countP isStartupNotif = 1 :=
  (forward_run_notifications [SidecarEvent.terminated] 1).2.2 (List.mem_singleton.mpr rfl)

/-! ### Shutdown kill idempotence (claim C8).

stop_backend from desktop/src-tauri/src/lib.rs lines 393-404.  The
mutex-guarded handle slot becomes the child field; guard.take() empties
it; child.kill() may fail, in which case the error is only logged and
never propagated, modelled by the kill_ok outcome parameter and the log
field.  The function is total: no path fails the caller. -/

structure ShellState where
  child : Option Nat
  killed : List Nat
  log : List String
deriving DecidableEq

def stop_backend (kill_ok : Nat → Bool) (s : ShellState) : ShellState :=
  match s.child with
  | none => s
  | some child =>
    if kill_ok child then { s with child := none, killed := s.killed ++ [child] }
    else { s with child := none, killed := s.killed ++ [child],
                  log := s.log ++ ["failed to stop sidecar"] }

/-- Claim C8: shutdown kill is idempotent and total on the handle state:
calling stop_backend on an empty handle slot (never spawned, or already
taken by a previous call) is a no-op that does not fail the caller,
calling it twice has the same effect as calling it once (even on the
whole state, kill outcomes and log included), and after any call the
handle slot is empty. -/
theorem stop_backend_idempotent (kill_ok : Nat → Bool) (s : ShellState) :
    (s.child = none → stop_backend kill_ok s = s)
    ∧ stop_backend kill_ok (stop_backend kill_ok s) = stop_backend kill_ok s
    ∧ (stop_backend kill_ok s).child = none := by
  have hnoop : ∀ t : ShellState, t.child = none → stop_backend kill_ok t = t := by
    intro t ht
    unfold stop_backend
    rw [ht]
  have hcleared : ∀ t : ShellState, (stop_backend kill_ok t).child = none := by
    intro t
    unfold stop_backend
    cases hc : t.child with
    | none => exact hc
    | some child =>
      show (if kill_ok child = true
          then { t with child := none, killed := t.killed ++ [child] }
          else { t with child := none, killed := t.killed ++ [child],
                        log := t.log ++ ["failed to stop sidecar"] }).child = none
      by_cases hk : kill_ok child = true
      · rw [if_pos hk]
      · rw [if_neg hk]
  exact ⟨hnoop s, hnoop (stop_backend kill_ok s) (hcleared s), hcleared s⟩

/-- Witness instantiating claim C8 on the empty handle slot. -/
theorem stop_backend_idempotent_witness :
    stop_backend (fun _ => true) ⟨none, [], []⟩ = ⟨none, [], []⟩ :=
  (stop_backend_idempotent (fun _ => true) ⟨none, [], []⟩).1 rfl

/-! ### Home directory resolution (claim C10).

resolve_home_dir_from_lookup from desktop/src-tauri/src/lib.rs lines
271-298.  The Rust closure get, which treats an empty value as unset,
becomes getNE; the HOMEDRIVE/HOMEPATH concatenation fallback shared by
both platform branches becomes homeDriveFallback, where the Rust ?
operator on either missing component yields None. -/

def getNE (lookup : String → Option String) (key : String) : Option String :=
  (lookup key).filter (fun v => v ≠ "")

def homeDriveFallback (lookup : String → Option String) : Option String :=
  match getNE lookup "HOMEDRIVE" with
  | none => none
  | some drive =>
    match getNE lookup "HOMEPATH" with
    | none => none
    | some path => some (drive ++ path)

def resolve_home_dir_from_lookup (lookup : String → Option String)
    (prefer_userprofile : Bool) : Option String :=
  if prefer_userprofile then
    match getNE lookup "USERPROFILE" with
    | some profile => some profile
    | none =>
      match getNE lookup "HOME" with
      | some home => some home
      | none => homeDriveFallback lookup
  else
    match getNE lookup "HOME" with
    | some home => some home
    | none =>
      match getNE lookup "USERPROFILE" with
      | some profile => some profile
      | none => homeDriveFallback lookup

/-- A lookup fails, in the sense of claim C10, when the variable is unset
or set to the empty string. -/
def LookupFails (lookup : String → Option String) (key : String) : Prop :=
  lookup key = none ∨ lookup key = some ""

theorem getNE_eq_none_iff (lookup : String → Option String) (key : String) :
    getNE lookup key = none ↔ LookupFails lookup key := by
  unfold getNE LookupFails
  cases h : lookup key with
  | none => simp [Option.filter]
  | some v =>
    by_cases hv : v = ""
    · simp [Option.filter, hv]
    · simp [Option.filter, hv]

theorem getNE_eq_some_iff (lookup : String → Option String) (key h : String) :
    getNE lookup key = some h ↔ lookup key = some h ∧ h ≠ "" := by
  unfold getNE
  cases hl : lookup key with
  | none => simp [Option.filter]
  | some v =>
    by_cases hv : v = ""
    · simp [Option.filter, hv]
      intro hc
      exact hc.symm
    · simp [Option.filter, hv]
      intro hc
      rw [← hc]
      exact hv

/-- The concrete lookup table of the claim C10 counterexample: only
HOMEDRIVE is set, to the nonempty drive C:. -/
def c10Lookup : String → Option String :=
  fun key => if key = "HOMEDRIVE" then some "C:" else none

/-- Claim C10, as stated, is false at c10Lookup: resolution returns None
although the HOMEDRIVE lookup succeeded with a nonempty value, because
the fallback needs both HOMEDRIVE and HOMEPATH, so None does not mean
every lookup failed. -/
theorem resolve_home_dir_counterexample :
    resolve_home_dir_from_lookup c10Lookup false = none
    ∧ ¬ LookupFails c10Lookup "HOMEDRIVE" := by
  constructor
  · decide
  · intro h
    rcases h with h | h <;> simp [c10Lookup] at h

theorem homeDriveFallback_eq_none_iff (lookup : String → Option String) :
    homeDriveFallback lookup = none ↔
      (LookupFails lookup "HOMEDRIVE" ∨ LookupFails lookup "HOMEPATH") := by
  unfold homeDriveFallback
  cases hd : getNE lookup "HOMEDRIVE" with
  | none =>
    simp only []
    constructor
    · intro _
      exact Or.inl ((getNE_eq_none_iff lookup "HOMEDRIVE").mp hd)
    · intro _
      trivial
  | some drive =>
    cases hp : getNE lookup "HOMEPATH" with
    | none =>
      simp only []
      constructor
      · intro _
        exact Or.inr ((getNE_eq_none_iff lookup "HOMEPATH").mp hp)
      · intro _
        trivial
    | some path =>
      simp only []
      constructor
      · intro hc
        exact absurd hc (by simp)
      · rintro (hfail | hfail)
        · rw [(getNE_eq_none_iff lookup "HOMEDRIVE").mpr hfail] at hd
          exact absurd hd (by simp)
        · rw [(getNE_eq_none_iff lookup "HOMEPATH").mpr hfail] at hp
          exact absurd hp (by simp)

theorem homeDriveFallback_eq_some (lookup : String → Option String) (d p : String)
    (hd : lookup "HOMEDRIVE" = some d) (hdne : d ≠ "")
    (hp : lookup "HOMEPATH" = some p) (hpne : p ≠ "") :
    homeDriveFallback lookup = some (d ++ p) := by
  unfold homeDriveFallback
  rw [(getNE_eq_some_iff lookup "HOMEDRIVE" d).mpr ⟨hd, hdne⟩,
    (getNE_eq_some_iff lookup "HOMEPATH" p).mpr ⟨hp, hpne⟩]

/-- Claim C10 amended: home-directory resolution tries HOME then
USERPROFILE on non-Windows and USERPROFILE then HOME on Windows, in both
cases falling back to the concatenation of HOMEDRIVE and HOMEPATH; a
variable whose value is the empty string is treated as unset at every
step; and None is returned exactly when HOME and USERPROFILE both fail
and at least one of HOMEDRIVE, HOMEPATH fails (so a successful HOMEDRIVE
lookup alone can still end in None). -/
theorem resolve_home_dir_characterization (lookup : String → Option String) :
    (∀ (w : Bool) (h : String),
      lookup (if w then "USERPROFILE" else "HOME") = some h → h ≠ "" →
        resolve_home_dir_from_lookup lookup w = some h)
    ∧ (∀ (w : Bool) (u : String),
        LookupFails lookup (if w then "USERPROFILE" else "HOME") →
        lookup (if w then "HOME" else "USERPROFILE") = some u → u ≠ "" →
        resolve_home_dir_from_lookup lookup w = some u)
    ∧ (∀ (w : Bool) (d p : String),
        LookupFails lookup "HOME" → LookupFails lookup "USERPROFILE" →
        lookup "HOMEDRIVE" = some d → d ≠ "" →
        lookup "HOMEPATH" = some p → p ≠ "" →
        resolve_home_dir_from_lookup lookup w = some (d ++ p))
    ∧ (∀ (w : Bool),
        resolve_home_dir_from_lookup lookup w = none ↔
          (LookupFails lookup "HOME" ∧ LookupFails lookup "USERPROFILE" ∧
            (LookupFails lookup "HOMEDRIVE" ∨ LookupFails lookup "HOMEPATH"))) := by
  refine ⟨?_, ?_, ?_, ?_⟩
  · intro w h hl hne
    cases w with
    | false =>
      show (match getNE lookup "HOME" with
        | some home => some home
        | none =>
          match getNE lookup "USERPROFILE" with
          | some profile => some profile
          | none => homeDriveFallback lookup) = some h
      rw [(getNE_eq_some_iff lookup "HOME" h).mpr ⟨hl, hne⟩]
    | true =>
      show (match getNE lookup "USERPROFILE" with
        | some profile => some profile
        | none =>
          match getNE lookup "HOME" with
          | some home => some home
          | none => homeDriveFallback lookup) = some h
      rw [(getNE_eq_some_iff lookup "USERPROFILE" h).mpr ⟨hl, hne⟩]
  · intro w u hfail hl hne
    cases w with
    | false =>
      show (match getNE lookup "HOME" with
        | some home => some home
        | none =>
          match getNE lookup "USERPROFILE" with
          | some profile => some profile
          | none => homeDriveFallback lookup) = some u
      rw [(getNE_eq_none_iff lookup "HOME").mpr hfail,
        (getNE_eq_some_iff lookup "USERPROFILE" u).mpr ⟨hl, hne⟩]
    | true =>
      show (match getNE lookup "USERPROFILE" with
        | some profile => some profile
        | none =>
          match getNE lookup "HOME" with
          | some home => some home
          | none => homeDriveFallback lookup) = some u
      rw [(getNE_eq_none_iff lookup "USERPROFILE").mpr hfail,
        (getNE_eq_some_iff lookup "HOME" u).mpr ⟨hl, hne⟩]
  · intro w d p hfailh hfailu hd hdne hp hpne
    cases w with
    | false =>
      show (match getNE lookup "HOME" with
        | some home => some home
        | none =>
          match getNE lookup "USERPROFILE" with
          | some profile => some profile
          | none => homeDriveFallback lookup) = some (d ++ p)
      rw [(getNE_eq_none_iff lookup "HOME").mpr hfailh,
        (getNE_eq_none_iff lookup "USERPROFILE").mpr hfailu]
      exact homeDriveFallback_eq_some lookup d p hd hdne hp hpne
    | true =>
      show (match getNE lookup "USERPROFILE" with
        | some profile => some profile
        | none =>
          match getNE lookup "HOME" with
          | some home => some home
          | none => homeDriveFallback lookup) = some (d ++ p)
      rw [(getNE_eq_none_iff lookup "USERPROFILE").mpr hfailu,
        (getNE_eq_none_iff lookup "HOME").mpr hfailh]
      exact homeDriveFallback_eq_some lookup d p hd hdne hp hpne
  · intro w
    cases w with
    | false =>
      show (match getNE lookup "HOME" with
        | some home => some home
        | none =>
          match getNE lookup "USERPROFILE" with
          | some profile => some profile
          | none => homeDriveFallback lookup) = none ↔ _
      cases hh : getNE lookup "HOME" with
      | some home =>
        simp only []
        constructor
        · intro hc
          exact absurd hc (by simp)
        · rintro ⟨hfail, _, _⟩
          rw [(getNE_eq_none_iff lookup "HOME").mpr hfail] at hh
          exact absurd hh (by simp)
      | none =>
        cases hu : getNE lookup "USERPROFILE" with
        | some profile =>
          simp only []
          constructor
          · intro hc
            exact absurd hc (by simp)
          · rintro ⟨_, hfail, _⟩
            rw [(getNE_eq_none_iff lookup "USERPROFILE").mpr hfail] at hu
            exact absurd hu (by simp)
        | none =>
          simp only []
          rw [homeDriveFallback_eq_none_iff]
          constructor
          · intro hdp
            exact ⟨(getNE_eq_none_iff lookup "HOME").mp hh,
              (getNE_eq_none_iff lookup "USERPROFILE").mp hu, hdp⟩
          · rintro ⟨_, _, hdp⟩
            exact hdp
    | true =>
      show (match getNE lookup "USERPROFILE" with
        | some profile => some profile
        | none =>
          match getNE lookup "HOME" with
          | some home => some home
          | none => homeDriveFallback lookup) = none ↔ _
      cases hu : getNE lookup "USERPROFILE" with
      | some profile =>
        simp only []
        constructor
        · intro hc
          exact absurd hc (by simp)
        · rintro ⟨_, hfail, _⟩
          rw [(getNE_eq_none_iff lookup "USERPROFILE").mpr hfail] at hu
          exact absurd hu (by simp)
      | none =>
        cases hh : getNE lookup "HOME" with
        | some home =>
          simp only []
          constructor
          · intro hc
            exact absurd hc (by simp)
          · rintro ⟨hfail, _, _⟩
            rw [(getNE_eq_none_iff lookup "HOME").mpr hfail] at hh
            exact absurd hh (by simp)
        | none =>
          simp only []
          rw [homeDriveFallback_eq_none_iff]
          constructor
          · intro hdp
            exact ⟨(getNE_eq_none_iff lookup "HOME").mp hh,
              (getNE_eq_none_iff lookup "USERPROFILE").mp hu, hdp⟩
          · rintro ⟨_, _, hdp⟩
            exact hdp

/-- Witness instantiating amended claim C10 on a concrete lookup table,
checking the non-Windows HOME precedence. -/
theorem resolve_home_dir_characterization_witness :
    resolve_home_dir_from_lookup
      (fun key => if key = "HOME" then some "/home/a" else none) false
      = some "/home/a" :=
  (resolve_home_dir_characterization
      (fun key => if key = "HOME" then some "/home/a" else none)).1
    false "/home/a" (by decide) (by decide)

/-! ### Login-shell probe timeout bound (claim C9).

run_login_shell_env from desktop/src-tauri/src/lib.rs lines 181-219, as
a discrete-time model over milliseconds.  The caller polls the child's
exit status every 25 ms (the thread sleep in the loop) until the
deadline; the background reader thread delivers the captured stdout over
a one-slot channel at time readerAt, controlled by whoever holds the
pipe (none means never: a detached descendant keeps the pipe open
forever); every drain uses recv_timeout with the 300 ms
LOGIN_SHELL_READER_TIMEOUT.  try_wait, kill and the post-kill wait are
modelled as instantaneous: kill forcibly ends the shell itself, so the
post-kill wait does not depend on any descendant, and only the sleeps
and the channel wait consume time.  exitAt is the time the shell exits
on its own (none: never), exitSuccess its exit status; the first result
component models the Option of the captured bytes. -/

def exitObserved (exitAt : Option Nat) (t : Nat) : Bool :=
  match exitAt with
  | some e => decide (e ≤ t)
  | none => false

def pollLoop (exitAt : Option Nat) (timeout t : Nat) : Bool × Nat :=
  if exitObserved exitAt t then (true, t)
  else if timeout ≤ t then (false, t)
  else pollLoop exitAt timeout (t + 25)
termination_by timeout - t
decreasing_by
  simp_wf
  omega

def recvAt (readerAt : Option Nat) (t : Nat) : Option Unit × Nat :=
  match readerAt with
  | some r => if r ≤ t + 300 then (some (), max r t) else (none, t + 300)
  | none => (none, t + 300)

def run_login_shell_env_sim (exitAt : Option Nat) (exitSuccess : Bool)
    (readerAt : Option Nat) (timeout : Nat) : Option Unit × Nat :=
  let res := pollLoop exitAt timeout 0
  if res.1 = false then (none, (recvAt readerAt res.2).2)
  else if exitSuccess then recvAt readerAt res.2
  else (none, (recvAt readerAt res.2).2)

theorem pollLoop_time_le (exitAt : Option Nat) (timeout : Nat) :
    ∀ (fuel t : Nat), timeout - t ≤ fuel → t ≤ timeout + 25 →
      (pollLoop exitAt timeout t).2 ≤ timeout + 25 := by
  intro fuel
  induction fuel with
  | zero =>
    intro t hfuel ht
    unfold pollLoop
    by_cases hobs : exitObserved exitAt t = true
    · rw [if_pos hobs]
      exact ht
    · rw [if_neg hobs]
      have hto : timeout ≤ t := by omega
      rw [if_pos hto]
      exact ht
  | succ n ih =>
    intro t hfuel ht
    unfold pollLoop
    by_cases hobs : exitObserved exitAt t = true
    · rw [if_pos hobs]
      exact ht
    · rw [if_neg hobs]
      by_cases hto : timeout ≤ t
      · rw [if_pos hto]
        exact ht
      · rw [if_neg hto]
        exact ih (t + 25) (by omega) (by omega)

theorem recvAt_time_le (readerAt : Option Nat) (t : Nat) :
    (recvAt readerAt t).2 ≤ t + 300 := by
  unfold recvAt
  cases readerAt with
  | none => exact le_refl _
  | some r =>
    show (if r ≤ t + 300 then ((some (), max r t) : Option Unit × Nat)
        else (none, t + 300)).2 ≤ t + 300
    by_cases hr : r ≤ t + 300
    · rw [if_pos hr]
      exact Nat.max_le.mpr ⟨hr, by omega⟩
    · rw [if_neg hr]

/-- Claim C9: the login-shell probe returns to its caller within the
given timeout plus a small fixed grace period, the final poll sleep of
25 ms plus the bounded 300 ms reader-drain wait, even when the shell
spawns a detached descendant that keeps the stdout pipe open after the
shell itself exits (readerAt = none): the bound does not depend on
readerAt at all; and on deadline expiry, after killing and reaping the
child and draining the reader for the bounded grace period, it returns
None. -/
theorem run_login_shell_env_sim_bounded (exitAt : Option Nat) (exitSuccess : Bool)
    (readerAt : Option Nat) (timeout : Nat) :
    (run_login_shell_env_sim exitAt exitSuccess readerAt timeout).2 ≤ timeout + 25 + 300
    ∧ ((pollLoop exitAt timeout 0).1 = false →
        (run_login_shell_env_sim exitAt exitSuccess readerAt timeout).1 = none) := by
  have hloop : (pollLoop exitAt timeout 0).2 ≤ timeout + 25 :=
    pollLoop_time_le exitAt timeout timeout 0 (by omega) (by omega)
  have hrecv := recvAt_time_le readerAt (pollLoop exitAt timeout 0).2
  unfold run_login_shell_env_sim
  by_cases hres : (pollLoop exitAt timeout 0).1 = false
  · rw [if_pos hres]
    exact ⟨by simp only []; omega, fun _ => rfl⟩
  · rw [if_neg hres]
    by_cases hsucc : exitSuccess = true
    · rw [if_pos hsucc]
      exact ⟨by omega, fun hc => absurd hc hres⟩
    · rw [if_neg hsucc]
      exact ⟨by simp only []; omega, fun _ => rfl⟩

/-- Witness instantiating claim C9 where the shell never exits and a
descendant holds the pipe open forever, at a zero timeout: the probe
still returns, with None. -/
theorem run_login_shell_env_sim_bounded_witness :
    (run_login_shell_env_sim none true none 0).1 = none := by
  apply (run_login_shell_env_sim_bounded none true none 0).2
  unfold pollLoop
  simp [exitObserved]

end AgentsView
